import Mathlib

/-!
Shallow embedding of the hikaru-print arbitrage engine core
(src/config.rs, src/price.rs, src/printer.rs) and proofs about its
specification claims.

Modelling conventions:
* Rust `u64`/`u128` values are `ℕ`; explicit `as` casts carry an explicit
  `% 2 ^ w` (or a saturating clamp for float-to-integer casts).
* `f64` arithmetic is modelled as exact rational arithmetic (`ℚ`);
  float-to-integer casts truncate toward zero and saturate, as in Rust.
* Rust vectors indexed by always-in-bounds indices are modelled as total
  maps `ℕ → _`; the one genuinely partial table access (`POWERS_OF_TEN`)
  additionally gets a checked model returning `Option`.
* The spl-token-swap curve implementation is an external crate (spec §1:
  the system "does not implement the underlying curve math library
  itself"), so each pool carries its curve as an abstract function
  returning `Option (source_amount_swapped, destination_amount_swapped)`,
  consumed exactly the way `Pool::predict_swap` consumes `SwapCurve::swap`.
-/

namespace Hikaru

/-- Truncation toward zero, the rounding of Rust float-to-integer casts. -/
def ratTrunc (q : ℚ) : ℤ := if 0 ≤ q then ⌊q⌋ else -⌊-q⌋

/-- Saturating `f64 as u128` cast (negative values clamp to 0; the upper
bound 2^128-1 is unreachable for the magnitudes the program computes and
is left off). -/
def toU128 (q : ℚ) : ℕ := (ratTrunc q).toNat

/-- Saturating `f64 as u64` cast. -/
def toU64sat (q : ℚ) : ℕ := min (ratTrunc q).toNat (2 ^ 64 - 1)

/-- Saturating `f64 as i64` cast. -/
def toI64sat (q : ℚ) : ℤ := max (-(2 ^ 63)) (min (2 ^ 63 - 1) (ratTrunc q))

/-- Wrapping `i64 as u64` cast. -/
def u64ofI64 (z : ℤ) : ℕ := (z % 2 ^ 64).toNat

/-- Wrapping `u64 as i64` cast. -/
def i64ofU64 (n : ℕ) : ℤ := ((n : ℤ) + 2 ^ 63) % 2 ^ 64 - 2 ^ 63

/-- config.rs: the static 13-entry `POWERS_OF_TEN` table (`[f64; 13]`,
entry `i` holds exactly `10^i`, all values below 2^53 so exact in `f64`). -/
def POWERS_OF_TEN : List ℚ :=
  [1, 10, 100, 1000, 10000, 100000, 1000000, 10000000, 100000000,
   1000000000, 10000000000, 100000000000, 1000000000000]

/-- Total power-of-ten lookup, used to model `POWERS_OF_TEN[d]` at the call
sites where the index is in bounds in every real configuration (decimals of
an SPL token are at most 12); the bounds-checked model for claim C10 is
`PoolPrice.swapChecked` / `PoolPrice.token_amountChecked` below. -/
def pow10 (n : ℕ) : ℚ := 10 ^ n

/-- config.rs `Currency`; only the `decimals` field is consumed by the
modelled code paths (name/mint/account are external identifiers). -/
structure Currency where
  decimals : ℕ

/-- config.rs `Token` (one pool leg binding); the concrete pubkeys are
external identifiers, only the currency index and the presence of the
optional `extra_account` are consumed by the modelled code. -/
structure Token where
  currency_idx : ℕ
  extra_account : Bool

/-- config.rs `Fees`; only the four fields read by `approximate_fees` are
modelled (the remaining fields feed only the external curve). -/
structure Fees where
  trade_fee_numerator : ℕ
  trade_fee_denominator : ℕ
  owner_trade_fee_numerator : ℕ
  owner_trade_fee_denominator : ℕ

/-- config.rs `SwapPool`, with the external spl-token-swap curve abstracted
as `curve_swap` (argument order: amount-in, source reserve, destination
reserve; result: `(source_amount_swapped, destination_amount_swapped)` or
`None`, mirroring `SwapCurve::swap`). -/
structure SwapPool where
  tokens : Fin 2 → Token
  needs_approve : Bool
  is_step : Bool
  fees : Fees
  curve_swap : ℕ → ℕ → ℕ → Option (ℕ × ℕ)

/-- config.rs `RaydiumPool` (fields consumed by the modelled code). -/
structure RaydiumPool where
  tokens : Fin 2 → Token
  fees : Fees
  curve_swap : ℕ → ℕ → ℕ → Option (ℕ × ℕ)

/-- config.rs `Pool`. -/
inductive Pool where
  | Swap : SwapPool → Pool
  | Raydium : RaydiumPool → Pool

instance : Inhabited Pool :=
  ⟨Pool.Swap ⟨fun _ => ⟨0, false⟩, false, false, ⟨0, 1, 0, 1⟩, fun _ _ _ => none⟩⟩

/-- config.rs `Pool::get_currency`. -/
def Pool.get_currency : Pool → Fin 2 → Token
  | .Swap p, i => p.tokens i
  | .Raydium p, i => p.tokens i

/-- config.rs `Pool::approximate_fees` (f64 divisions as exact `ℚ`). -/
def Pool.approximate_fees (f : Fees) : ℚ :=
  (f.trade_fee_numerator : ℚ) / (f.trade_fee_denominator : ℚ)
    + (f.owner_trade_fee_numerator : ℚ) / (f.owner_trade_fee_denominator : ℚ)

/-- config.rs `Pool::fees`. -/
def Pool.fees : Pool → ℚ
  | .Swap p => 1 - Pool.approximate_fees p.fees
  | .Raydium p => 1 - Pool.approximate_fees p.fees

/-- config.rs `Pool::needs_approval`. -/
def Pool.needs_approval : Pool → Bool
  | .Swap p => p.needs_approve
  | .Raydium _ => false

/-- config.rs `Pool::predict_swap`: delegate to the external curve, map a
`SwapResult` to `(amount_swapped, source_amount)` and any failure to
`(0, 0)`. -/
def Pool.predict_swap (pool : Pool) (toys_in swap_source_amount swap_destination_amount : ℕ) :
    ℕ × ℕ :=
  match pool with
  | .Swap p =>
    match p.curve_swap toys_in swap_source_amount swap_destination_amount with
    | some r => (r.2, r.1)
    | none => (0, 0)
  | .Raydium p =>
    match p.curve_swap toys_in swap_source_amount swap_destination_amount with
    | some r => (r.2, r.1)
    | none => (0, 0)

/-- price.rs `TokenPrice`: cached `(ui-amount, decimals)` for one leg. -/
@[ext] structure TokenPrice where
  token_amount : ℚ × ℕ
deriving DecidableEq

/-- price.rs `PoolPrice`. -/
@[ext] structure PoolPrice where
  sanity : Bool
  token_price : Fin 2 → TokenPrice
  token_updated : Fin 2 → Bool

/-- price.rs `PoolPrice::init`: synchronous fetch of both legs' reserves
(the fetched values are a parameter), sanity true, both flags clear. -/
def PoolPrice.init (tp : Fin 2 → TokenPrice) : PoolPrice :=
  { sanity := true, token_price := tp, token_updated := fun _ => false }

/-- price.rs `PoolPrice::swap` with the total power table (in-bounds call
sites). -/
def PoolPrice.swap (s : PoolPrice) (toys_in : ℕ) (direction : Fin 2) (pool_info : Pool) :
    ℕ × ℕ :=
  let a := (s.token_price direction).token_amount
  let b := (s.token_price (1 - direction)).token_amount
  let decs := max a.2 b.2
  pool_info.predict_swap toys_in (toU128 (a.1 * pow10 decs)) (toU128 (b.1 * pow10 decs))

/-- price.rs `PoolPrice::token_amount` with the total power table. -/
def PoolPrice.token_amount (s : PoolPrice) (direction : Fin 2) : ℚ :=
  (s.token_price direction).token_amount.1 * pow10 (s.token_price direction).token_amount.2

/-- price.rs `PoolPrice::swap` with the actual bounds-checked
`POWERS_OF_TEN[decs]` array access (`none` models the Rust panic on an
out-of-bounds index). -/
def PoolPrice.swapChecked (s : PoolPrice) (toys_in : ℕ) (direction : Fin 2)
    (pool_info : Pool) : Option (ℕ × ℕ) :=
  let a := (s.token_price direction).token_amount
  let b := (s.token_price (1 - direction)).token_amount
  let decs := max a.2 b.2
  match POWERS_OF_TEN.get? decs with
  | none => none
  | some p => some (pool_info.predict_swap toys_in (toU128 (a.1 * p)) (toU128 (b.1 * p)))

/-- price.rs `PoolPrice::token_amount` with the bounds-checked table
access. -/
def PoolPrice.token_amountChecked (s : PoolPrice) (direction : Fin 2) : Option ℚ :=
  let a := (s.token_price direction).token_amount
  (POWERS_OF_TEN.get? a.2).map fun p => a.1 * p

/-- price.rs `TokenPrice::update` on a well-formed account payload carrying
raw amount `amount`: the cached value becomes
`(amount / POWERS_OF_TEN[decs], decs)` with the old decimals `decs`. -/
def TokenPrice.update (t : TokenPrice) (amount : ℕ) : TokenPrice :=
  ⟨((amount : ℚ) / pow10 t.token_amount.2, t.token_amount.2)⟩

/-- printer.rs `Printer::run`, lines 313-330 (and the identical 422-439):
the scheduler's handling of one reserve-update event `(leg, raw amount)`
for a `Pool::Swap` pool: write the leg's reserve, then the pairing logic on
the updated-flags and sanity. -/
def PoolPrice.update (s : PoolPrice) (tkn : Fin 2) (amount : ℕ) : PoolPrice :=
  let s1 : PoolPrice :=
    { s with token_price := Function.update s.token_price tkn ((s.token_price tkn).update amount) }
  if s1.token_updated (1 - tkn) then
    { s1 with
        token_updated := Function.update (Function.update s1.token_updated tkn false) (1 - tkn) false,
        sanity := true }
  else
    { s1 with token_updated := Function.update s1.token_updated tkn true, sanity := false }

/-- A finite sequence of single-leg reserve-update events applied in
order. -/
def PoolPrice.applyEvents (s : PoolPrice) (es : List (Fin 2 × ℕ)) : PoolPrice :=
  es.foldl (fun st e => st.update e.1 e.2) s

/-- config.rs `Config` (the fields consumed by the modelled core; `u64` and
`u128` fields as `ℕ`, `f64` fields as `ℚ`). -/
structure Config where
  start_currency : ℕ
  safety_percentage : ℚ
  minimum_gain : ℕ
  minimum_money : ℕ
  slippage : ℚ
  max_cycle_length : ℕ
  cooldown : ℕ
  greed : ℚ
  extra_budget : ℕ

/-- config.rs `Cycle`. -/
structure Cycle where
  needs_approval : Bool
  path : List (ℕ × Fin 2)
deriving DecidableEq

/-- printer.rs `Printer`; the currency and pool vectors are modelled as
total index maps (all indices used by the modelled code paths are in
bounds in a well-formed configuration). -/
structure Printer where
  money : ℕ
  currencies : ℕ → Currency
  pools : ℕ → Pool

/-- printer.rs `Printer::compute_potential`, loop body (lines 634-666),
with `toys_in` and the running `decs` threaded explicitly. -/
def compute_potential_go (P : Printer) (cfg : Config) (pp : ℕ → PoolPrice) :
    List (ℕ × Fin 2) → ℕ → ℕ → ℕ
  | [], toys_in, _ => toys_in
  | (curr_pool, dir) :: rest, toys_in, decs =>
    let pool_price := pp curr_pool
    if pool_price.sanity = false then 0
    else
      let pool := P.pools curr_pool
      let curr_a := P.currencies (pool.get_currency dir).currency_idx
      let curr_b := P.currencies (pool.get_currency (1 - dir)).currency_idx
      let ndecs := curr_b.decimals
      let decs1 := if decs = 0 then curr_a.decimals else decs
      let res := pool_price.swap toys_in dir pool
      let toys_out := toU128 ((res.1 : ℚ) * (1 - cfg.slippage))
      let toys_in1 :=
        if decs1 ≠ 0 ∧ decs1 ≠ ndecs then
          toU128 ((toys_out : ℚ) / pow10 decs1 * pow10 ndecs)
        else toys_out
      compute_potential_go P cfg pp rest toys_in1 ndecs

/-- printer.rs `Printer::compute_potential` (direct leg-by-leg simulation
of a cycle through the price cache). -/
def compute_potential (P : Printer) (cfg : Config) (cycle : Cycle) (pp : ℕ → PoolPrice)
    (gamble_money : ℕ) : ℕ :=
  compute_potential_go P cfg pp cycle.path gamble_money 0

/-- printer.rs lines 588-590: the inner discount loop
`for _j in 0..i { f = f * (1.0 - slippage) }`. -/
def slipLoop (slippage : ℚ) : ℕ → ℚ → ℚ
  | 0, f => f
  | n + 1, f => slipLoop slippage n (f * (1 - slippage))

/-- printer.rs `Printer::get_best_gamble_money`, coefficient accumulation
loop (lines 577-598); state is `(alpha, beta, gamma)`, `i` the leg index. -/
def solverCoeffsGo (P : Printer) (cfg : Config) (pp : ℕ → PoolPrice) :
    List (ℕ × Fin 2) → ℕ → ℚ × ℚ × ℚ → ℚ × ℚ × ℚ
  | [], _, st => st
  | (pool, dir) :: rest, i, (alpha, beta, gamma) =>
    let a := (pp pool).token_amount dir
    let b := (pp pool).token_amount (1 - dir)
    let f := slipLoop cfg.slippage i ((P.pools pool).fees * (1 - cfg.slippage))
    solverCoeffsGo P cfg pp rest (i + 1) (alpha * b * f, beta * a, gamma * a + alpha * f)

/-- The composed-curve coefficients `(alpha, beta, gamma)` computed by
`get_best_gamble_money` for a path. -/
def solverCoeffs (P : Printer) (cfg : Config) (pp : ℕ → PoolPrice)
    (path : List (ℕ × Fin 2)) : ℚ × ℚ × ℚ :=
  solverCoeffsGo P cfg pp path 0 (1, 1, 0)

/-- Modelled from the spec (claim C5 wording): the same accumulation but
with per-hop discount `f = fees(leg_i) * (1 - slippage_margin)` for every
leg, i.e. without the extra index-dependent slippage factors. Used only as
the refinement comparator for claim C5. -/
def specClaimCoeffsGo (P : Printer) (cfg : Config) (pp : ℕ → PoolPrice) :
    List (ℕ × Fin 2) → ℚ × ℚ × ℚ → ℚ × ℚ × ℚ
  | [], st => st
  | (pool, dir) :: rest, (alpha, beta, gamma) =>
    let a := (pp pool).token_amount dir
    let b := (pp pool).token_amount (1 - dir)
    let f := (P.pools pool).fees * (1 - cfg.slippage)
    specClaimCoeffsGo P cfg pp rest (alpha * b * f, beta * a, gamma * a + alpha * f)

/-- The claim-C5-shaped coefficients for a whole path. -/
def specClaimCoeffs (P : Printer) (cfg : Config) (pp : ℕ → PoolPrice)
    (path : List (ℕ × Fin 2)) : ℚ × ℚ × ℚ :=
  specClaimCoeffsGo P cfg pp path (1, 1, 0)

/-- The accumulation with the discount the code actually applies to leg
`i`: `f = fees(leg_i) * (1 - slippage_margin) ^ (i + 1)` (closed form for
the inner loop). -/
def specAmendedCoeffsGo (P : Printer) (cfg : Config) (pp : ℕ → PoolPrice) :
    List (ℕ × Fin 2) → ℕ → ℚ × ℚ × ℚ → ℚ × ℚ × ℚ
  | [], _, st => st
  | (pool, dir) :: rest, i, (alpha, beta, gamma) =>
    let a := (pp pool).token_amount dir
    let b := (pp pool).token_amount (1 - dir)
    let f := (P.pools pool).fees * (1 - cfg.slippage) ^ (i + 1)
    specAmendedCoeffsGo P cfg pp rest (i + 1) (alpha * b * f, beta * a, gamma * a + alpha * f)

/-- The amended-claim coefficients for a whole path. -/
def specAmendedCoeffs (P : Printer) (cfg : Config) (pp : ℕ → PoolPrice)
    (path : List (ℕ × Fin 2)) : ℚ × ℚ × ℚ :=
  specAmendedCoeffsGo P cfg pp path 0 (1, 1, 0)

/-- printer.rs line 600: the unscaled trial size
`((alpha * beta).sqrt() - beta) / gamma` over the accumulated coefficients
`(alpha, beta, gamma)` (f64 square root modelled as the real square
root). -/
noncomputable def gamble_money_f (c : ℚ × ℚ × ℚ) : ℝ :=
  (Real.sqrt ((c.1 : ℝ) * (c.2.1 : ℝ)) - (c.2.1 : ℝ)) / (c.2.2 : ℝ)

/-- printer.rs `Printer::get_gamble_money` (lines 564-566). -/
def get_gamble_money (P : Printer) (cfg : Config) : ℕ :=
  toU64sat ((P.money : ℚ) * cfg.safety_percentage)

/-- printer.rs `Printer::get_best_gamble_money`, final scaling and
clamping (lines 600-620), parametrized by the f64 value `gamble_money_f`
computed on line 600 (modelled as an exact rational). -/
def clamp_gamble_money (P : Printer) (cfg : Config) (gmf : ℚ) : ℕ :=
  let max_gamble_money := get_gamble_money P cfg
  let gamble_money : ℤ := toI64sat ((⌊gmf⌋ : ℚ) * cfg.greed)
  if gamble_money < i64ofU64 cfg.minimum_money ∨ max_gamble_money < u64ofI64 gamble_money then
    max_gamble_money
  else
    u64ofI64 gamble_money

/-- printer.rs `Printer::run`: the mutable per-cycle slot of the scheduler
(`cycle_cooldown[i]`, `cycle_gain[i]`, `cycle_money[i]`,
`cycle_needs_update[i]`). -/
structure CycleState where
  cooldown : ℕ
  gain : ℕ
  money : ℕ
  needs_update : Bool
deriving DecidableEq

/-- printer.rs `Printer::run`, evaluation-pass body for one cycle (lines
360-394). `bg` is the value `get_best_gamble_money` returns for the cycle
and `pot` the value `compute_potential` returns at size `bg` (both passed
as oracles since they are only consulted, not mutated, here). Result: the
new slot state and whether an execution request (`execute_path` call) was
issued. The `minimum_gain as u64` cast and the cached-branch u64 addition
wrap explicitly; the u128 addition `bg + minimum_gain` cannot wrap for the
u64-bounded `bg` the program produces. -/
def evalCycle (cfg : Config) (bg pot : ℕ) (s : CycleState) : CycleState × Bool :=
  if s.needs_update = false ∧ s.cooldown = 0 then (s, false)
  else if s.needs_update = false then
    let s1 : CycleState := { s with cooldown := s.cooldown - 1 }
    if cfg.minimum_money ≤ s1.money ∧ (s1.money + cfg.minimum_gain % 2 ^ 64) % 2 ^ 64 < s1.gain then
      (s1, true)
    else (s1, false)
  else
    let s1 : CycleState := { s with needs_update := false }
    if bg = s1.money then (s1, false)
    else
      let s2 : CycleState := { s1 with money := bg }
      if bg < cfg.minimum_money then (s2, false)
      else if s2.gain = pot % 2 ^ 64 then (s2, false)
      else
        let s3 : CycleState := { s2 with gain := pot % 2 ^ 64, cooldown := cfg.cooldown }
        if bg + cfg.minimum_gain < pot then (s3, true) else (s3, false)

/-- The wire instructions appearing in an execution bundle, abstracted to
the amount fields the core chooses; account metas, program ids and
encodings are external. `approve` is the one-shot pre-authorization
spl-token instruction, `swapIns` a venue swap instruction with its
`amount_in` and `minimum_amount_out`. -/
inductive Instr where
  | computeBudget : ℕ → Instr
  | approve : ℕ → Instr
  | swapIns : ℕ → ℕ → Instr
deriving DecidableEq

/-- config.rs `Pool::swap` (lines 616-753): append this leg's instructions
to the bundle. For a `Swap` pool: an optional approve (amount
`toys_in as u64`) followed by the swap instruction (`amount_in =
toys_in as u64`, `minimum_amount_out = toys_out as u64`); the `is_step`
variant only reorders account metas. For a `Raydium` pool: fail (`false`
in Rust, `none` here) when either leg lacks its serum `extra_account`,
otherwise push the `swap_base_in` instruction (whose construction only
errs on an unreachable packing failure). -/
def Pool.swap (pool : Pool) (instructions : List Instr) (toys_in toys_out : ℕ)
    (direction : Fin 2) : Option (List Instr) :=
  match pool with
  | .Swap p =>
    let ins0 :=
      if p.needs_approve then instructions ++ [Instr.approve (toys_in % 2 ^ 64)]
      else instructions
    some (ins0 ++ [Instr.swapIns (toys_in % 2 ^ 64) (toys_out % 2 ^ 64)])
  | .Raydium p =>
    if (p.tokens direction).extra_account = false then none
    else if (p.tokens (1 - direction)).extra_account = false then none
    else some (instructions ++ [Instr.swapIns (toys_in % 2 ^ 64) (toys_out % 2 ^ 64)])

/-- printer.rs `Printer::execute_path`, main loop (lines 476-535): build
the bundle leg by leg. `some instructions` means control reached the final
`send_transaction` with that bundle (submission attempted; the external
send may still fail); `none` means a venue adapter failed and the whole
submission was abandoned (`return None` on line 531). A leg whose
predicted `traded` exceeds `toys_in` breaks out of the loop before adding
its instruction, and the prefix built so far is still submitted. -/
def execute_path_go (P : Printer) (cfg : Config) (pp : ℕ → PoolPrice) (gamble_money : ℕ) :
    List (ℕ × Fin 2) → ℕ → ℕ → List Instr → Option (List Instr)
  | [], _, _, instructions => some instructions
  | (curr_pool, dir) :: rest, toys_in, decs, instructions =>
    let pool_price := pp curr_pool
    let pool := P.pools curr_pool
    let curr_a := P.currencies (pool.get_currency dir).currency_idx
    let curr_b := P.currencies (pool.get_currency (1 - dir)).currency_idx
    let ndecs := curr_b.decimals
    let decs1 := if decs = 0 then curr_a.decimals else decs
    let res := pool_price.swap toys_in dir pool
    let toys_out := toU128 ((res.1 : ℚ) * (1 - cfg.slippage))
    if toys_in < res.2 then some instructions
    else
      let nout :=
        if decs1 ≠ 0 ∧ decs1 ≠ ndecs then
          toU128 ((toys_out : ℚ) / pow10 decs1 * pow10 ndecs)
        else toys_out
      let out := if rest = [] then gamble_money else 0
      match pool.swap instructions toys_in out dir with
      | none => none
      | some instructions1 => execute_path_go P cfg pp gamble_money rest nout ndecs instructions1

/-- printer.rs `Printer::execute_path` (lines 449-562). -/
def execute_path (P : Printer) (cfg : Config) (cycle : Cycle) (gamble_money : ℕ)
    (pp : ℕ → PoolPrice) : Option (List Instr) :=
  let init : List Instr :=
    if 0 < cfg.extra_budget then [Instr.computeBudget cfg.extra_budget] else []
  execute_path_go P cfg pp gamble_money cycle.path gamble_money 0 init

/-- The ordered list of `minimum_amount_out` values of the swap
instructions in a bundle. -/
def swapMins : List Instr → List ℕ
  | [] => []
  | Instr.swapIns _ m :: rest => m :: swapMins rest
  | _ :: rest => swapMins rest

/-- The two leg directions, in the iteration order of `for w in 0..=1`. -/
def legDirs : List (Fin 2) := [0, 1]

/-- The input currency index of a path leg `(pool id, direction)`. -/
def legIn (pools : List Pool) (q : ℕ × Fin 2) : ℕ :=
  ((pools.getD q.1 default).get_currency q.2).currency_idx

/-- The output currency index of a path leg. -/
def legOut (pools : List Pool) (q : ℕ × Fin 2) : ℕ :=
  ((pools.getD q.1 default).get_currency (1 - q.2)).currency_idx

/-- config.rs `construct_cycles`, initial frontier (lines 760-769): every
`(pool, direction)` whose input leg is the start currency, as a length-1
path. -/
def initFrontier (cfg : Config) (pools : List Pool) : List Cycle :=
  (List.range pools.length).flatMap fun p =>
    legDirs.filterMap fun w =>
      if legIn pools (p, w) = cfg.start_currency then
        some ⟨(pools.getD p default).needs_approval, [(p, w)]⟩
      else none

/-- config.rs `construct_cycles`, one frontier path's extensions (lines
774-794): each produced cycle is tagged `true` when it closed back to the
start currency (pushed to `results`) and `false` when it goes to the next
frontier (`tmp2`). -/
def expandCycle (cfg : Config) (pools : List Pool) (c : Cycle) : List (Cycle × Bool) :=
  match c.path.getLast? with
  | none => []
  | some (lst_pool, lst_in_tkn_idx) =>
    let lst_out := legOut pools (lst_pool, lst_in_tkn_idx)
    (List.range pools.length).flatMap fun p =>
      if c.path.any fun q => q.1 == p then []
      else
        legDirs.filterMap fun w =>
          if legIn pools (p, w) = lst_out then
            some (⟨c.needs_approval || (pools.getD p default).needs_approval,
                   c.path ++ [(p, w)]⟩,
                  legOut pools (p, w) == cfg.start_currency)
          else none

/-- config.rs `construct_cycles`, one pass of the `for _i in
1..max_cycle_length` loop over the accumulated `(results, tmp)` pair. -/
def stepCycles (cfg : Config) (pools : List Pool) (acc : List Cycle × List Cycle) :
    List Cycle × List Cycle :=
  let pieces := acc.2.flatMap (expandCycle cfg pools)
  (acc.1 ++ pieces.filterMap fun qc => if qc.2 then some qc.1 else none,
   pieces.filterMap fun qc => if qc.2 then none else some qc.1)

/-- The `for _i in 1..max_cycle_length` loop, by fuel. -/
def cyclesLoop (cfg : Config) (pools : List Pool) :
    ℕ → List Cycle × List Cycle → List Cycle × List Cycle
  | 0, acc => acc
  | n + 1, acc => cyclesLoop cfg pools n (stepCycles cfg pools acc)

/-- config.rs `construct_cycles` (lines 756-801). -/
def construct_cycles (cfg : Config) (pools : List Pool) : List Cycle :=
  (cyclesLoop cfg pools (cfg.max_cycle_length - 1) ([], initFrontier cfg pools)).1

/-- Path chaining from a given current currency: each leg's input currency
matches the running currency, which its output then replaces. -/
def chainFrom (pools : List Pool) : ℕ → List (ℕ × Fin 2) → Prop
  | _, [] => True
  | cur, q :: rest => legIn pools q = cur ∧ chainFrom pools (legOut pools q) rest

/-- The running output currency after traversing a path from `cur`. -/
def outAfter (pools : List Pool) : ℕ → List (ℕ × Fin 2) → ℕ
  | cur, [] => cur
  | _, q :: rest => outAfter pools (legOut pools q) rest

/-! Concrete sample data used by counterexamples and witnesses. -/

/-- A zero-fee fee schedule (0/1 trade fee and 0/1 owner fee). -/
def feesZero : Fees := ⟨0, 1, 0, 1⟩

/-- A benign sample curve: everything fed in is consumed and returned
one-for-one. -/
def curveId : ℕ → ℕ → ℕ → Option (ℕ × ℕ) := fun toys _ _ => some (toys, toys)

/-- A sample curve whose predicted consumed amount exceeds the amount fed
in (a pluggable curve-model instance; the Curve Model contract in spec
§4.1 only fixes the shape `(amount_out, amount_consumed)`). -/
def curveOver : ℕ → ℕ → ℕ → Option (ℕ × ℕ) := fun toys _ _ => some (toys + 1, 0)

/-- Sample token binding for currency `c`. -/
def tok (c : ℕ) : Token := ⟨c, true⟩

/-- Sample pool trading currency 0 (direction 0) against currency 1. -/
def poolAB : Pool :=
  Pool.Swap ⟨fun d => if d = 0 then tok 0 else tok 1, false, false, feesZero, curveId⟩

/-- Sample pool trading currency 1 (direction 0) against currency 0. -/
def poolBA : Pool :=
  Pool.Swap ⟨fun d => if d = 0 then tok 1 else tok 0, false, false, feesZero, curveId⟩

/-- Like `poolBA` but with the over-consuming curve. -/
def poolBAover : Pool :=
  Pool.Swap ⟨fun d => if d = 0 then tok 1 else tok 0, false, false, feesZero, curveOver⟩

/-- Sample cached leg reserves: ui-amount 1 at 0 decimals on both legs. -/
def tp0 : Fin 2 → TokenPrice := fun _ => ⟨(1, 0)⟩

/-- All pools sane with reserves `tp0`. -/
def ppSane : ℕ → PoolPrice := fun _ => ⟨true, tp0, fun _ => false⟩

/-- All pools non-sane with reserves `tp0`. -/
def ppInsane : ℕ → PoolPrice := fun _ => ⟨false, tp0, fun _ => false⟩

/-- All currencies at 0 decimals. -/
def curr0 : ℕ → Currency := fun _ => ⟨0⟩

/-- Sample configuration (no fees floors, no slippage, greed 1). -/
def cfgSample : Config := ⟨0, 1 / 2, 0, 0, 0, 2, 3, 1, 0⟩

/-- Sample configuration with slippage margin 1/2. -/
def cfgSlip : Config := ⟨0, 1 / 2, 0, 0, 1 / 2, 2, 3, 1, 0⟩

/-- Sample printer over `poolAB`/`poolBA`. -/
def printerSample : Printer := ⟨1000, curr0, fun n => if n = 0 then poolAB else poolBA⟩

/-- Sample printer whose second pool over-consumes. -/
def printerBreak : Printer := ⟨1000, curr0, fun n => if n = 0 then poolAB else poolBAover⟩

/-- The two-leg round-trip cycle over pools 0 and 1. -/
def cycAB : Cycle := ⟨false, [(0, 0), (1, 0)]⟩

/-- A one-leg path used for the C4 witness. -/
def cycSingle : Cycle := ⟨false, [(0, 0)]⟩

/-- A pool price whose cached decimals (13) exceed the table bound. -/
def ppBigDecs : PoolPrice := ⟨true, fun _ => ⟨(1, 13)⟩, fun _ => false⟩

/-- The two-pool configuration used by the C7 witness. -/
def poolsSample : List Pool := [poolAB, poolBA]

/-- Invariant of `construct_cycles` frontier paths after some number of
extension rounds: nonempty, of the round's uniform length, no repeated
pool id, chained from the start currency, and approval-flag equal to the
OR along the path. -/
def FrontInv (cfg : Config) (pools : List Pool) (L : ℕ) (c : Cycle) : Prop :=
  c.path ≠ [] ∧ c.path.length = L ∧ (c.path.map Prod.fst).Nodup ∧
  chainFrom pools cfg.start_currency c.path ∧
  c.needs_approval = c.path.any fun q => (pools.getD q.1 default).needs_approval

/-- Invariant of emitted result cycles: as `FrontInv` but with a length
bound and a closing output equal to the start currency. -/
def ResInv (cfg : Config) (pools : List Pool) (B : ℕ) (c : Cycle) : Prop :=
  c.path ≠ [] ∧ c.path.length ≤ B ∧ (c.path.map Prod.fst).Nodup ∧
  chainFrom pools cfg.start_currency c.path ∧
  outAfter pools cfg.start_currency c.path = cfg.start_currency ∧
  c.needs_approval = c.path.any fun q => (pools.getD q.1 default).needs_approval

/-! Helper lemmas about the price-cache pairing update. -/

lemma update_sanity (s : PoolPrice) (tkn : Fin 2) (amount : ℕ) :
    (s.update tkn amount).sanity = s.token_updated (1 - tkn) := by
  unfold PoolPrice.update
  by_cases h : s.token_updated (1 - tkn) <;> simp [h]

lemma update_flag_self (s : PoolPrice) (tkn : Fin 2) (amount : ℕ) :
    (s.update tkn amount).token_updated tkn = !s.token_updated (1 - tkn) := by
  have hne : tkn ≠ 1 - tkn := by omega
  unfold PoolPrice.update
  by_cases h : s.token_updated (1 - tkn) <;>
    simp [h, Function.update_noteq hne, Function.update_same]

lemma update_flag_other (s : PoolPrice) (tkn : Fin 2) (amount : ℕ) :
    (s.update tkn amount).token_updated (1 - tkn) = false := by
  have hne : (1 : Fin 2) - tkn ≠ tkn := by omega
  unfold PoolPrice.update
  by_cases h : s.token_updated (1 - tkn) <;>
    simp [h, Function.update_noteq hne, Function.update_same]

lemma update_flag_char (s : PoolPrice) (tkn : Fin 2) (amount : ℕ) (l : Fin 2) :
    ((s.update tkn amount).token_updated l = true ↔
      ((s.update tkn amount).sanity = false ∧ l = tkn)) := by
  have hl : l = tkn ∨ l = 1 - tkn := by omega
  have hne : (1 : Fin 2) - tkn ≠ tkn := by omega
  rcases hl with h | h
  · rw [h, update_flag_self, update_sanity]
    by_cases hb : s.token_updated (1 - tkn) <;> simp [hb]
  · rw [h, update_flag_other, update_sanity]
    simp [hne]

/-- C1 (amended): every scheduler reserve-update follows the pairing rule
(sanity becomes the other leg's previous updated-flag; this leg's flag
becomes its negation; the other leg's flag is always clear afterwards),
and after at least two updates sanity is true iff the last two updates hit
distinct legs AND sanity was false after the first of those two (the
original claim lacks the second condition: a penultimate update that
itself completed a pair leaves the final update unmatched even when the
last two legs differ). -/
theorem C1_pairing_amended :
    (∀ (s : PoolPrice) (tkn : Fin 2) (amount : ℕ),
        (s.update tkn amount).sanity = s.token_updated (1 - tkn) ∧
        (s.update tkn amount).token_updated tkn = !s.token_updated (1 - tkn) ∧
        (s.update tkn amount).token_updated (1 - tkn) = false) ∧
    (∀ (tp : Fin 2 → TokenPrice) (es : List (Fin 2 × ℕ)) (a b : Fin 2 × ℕ),
        ((PoolPrice.init tp).applyEvents (es ++ [a, b])).sanity = true ↔
          (a.1 ≠ b.1 ∧ ((PoolPrice.init tp).applyEvents (es ++ [a])).sanity = false)) := by
  constructor
  · exact fun s tkn amount =>
      ⟨update_sanity s tkn amount, update_flag_self s tkn amount, update_flag_other s tkn amount⟩
  · intro tp es a b
    have hsplit : (PoolPrice.init tp).applyEvents (es ++ [a, b]) =
        (((PoolPrice.init tp).applyEvents es).update a.1 a.2).update b.1 b.2 := by
      unfold PoolPrice.applyEvents
      rw [List.foldl_append]
      rfl
    have hsplit1 : (PoolPrice.init tp).applyEvents (es ++ [a]) =
        ((PoolPrice.init tp).applyEvents es).update a.1 a.2 := by
      unfold PoolPrice.applyEvents
      rw [List.foldl_append]
      rfl
    rw [hsplit, hsplit1, update_sanity,
        update_flag_char ((PoolPrice.init tp).applyEvents es) a.1 a.2 (1 - b.1)]
    constructor
    · rintro ⟨h1, h2⟩
      exact ⟨by omega, h1⟩
    · rintro ⟨h1, h2⟩
      exact ⟨h2, by omega⟩

/-- C1 counterexample: after the event sequence legs `[0, 0, 1, 0]` the
last two updates hit distinct legs (1 then 0), yet sanity is false — the
claimed "last two updates to distinct legs" characterization fails. -/
theorem C1_counterexample :
    ((PoolPrice.init tp0).applyEvents [(0, 1), (0, 1), (1, 1), (0, 1)]).sanity = false ∧
      ((1 : Fin 2) ≠ (0 : Fin 2)) := by decide

/-- C2 (amended): re-applying the same reserve-update event is a no-op
provided the other leg's updated-flag is clear when the event first
arrives (i.e. the first application does not complete a pair). -/
theorem C2_idempotent_amended (s : PoolPrice) (tkn : Fin 2) (amount : ℕ)
    (h : s.token_updated (1 - tkn) = false) :
    (s.update tkn amount).update tkn amount = s.update tkn amount := by
  have hne : (1 : Fin 2) - tkn ≠ tkn := by omega
  unfold PoolPrice.update TokenPrice.update
  simp [h, Function.update_noteq hne, Function.update_same, Function.update_idem]

/-- C2 witness: a concrete no-pair state where double application equals
single application. -/
theorem C2_idempotent_witness :
    (PoolPrice.init tp0).token_updated (1 - 0) = false ∧
      ((PoolPrice.init tp0).update 0 5).update 0 5 = (PoolPrice.init tp0).update 0 5 :=
  ⟨by decide, C2_idempotent_amended (PoolPrice.init tp0) 0 5 (by decide)⟩

/-- C2 counterexample: from the reachable state obtained by one update to
leg 1, applying the same leg-0 event twice differs from applying it once
(the first application completes the pair and clears the flag, the second
re-sets it), refuting idempotence as claimed. -/
theorem C2_counterexample :
    ((((PoolPrice.init tp0).applyEvents [(1, 1)]).update 0 1).update 0 1).token_updated 0 = true ∧
      (((PoolPrice.init tp0).applyEvents [(1, 1)]).update 0 1).token_updated 0 = false := by
  decide

lemma compute_potential_go_insane (P : Printer) (cfg : Config) (pp : ℕ → PoolPrice) :
    ∀ (path : List (ℕ × Fin 2)) (toys decs : ℕ),
      (∃ q ∈ path, (pp q.1).sanity = false) →
      compute_potential_go P cfg pp path toys decs = 0 := by
  intro path
  induction path with
  | nil => intro toys decs h; simp at h
  | cons q rest ih =>
    rcases q with ⟨p, w⟩
    intro toys decs h
    unfold compute_potential_go
    by_cases hp : (pp p).sanity = false
    · simp [hp]
    · rw [if_neg hp]
      apply ih
      obtain ⟨q0, hq0, hs⟩ := h
      rcases List.mem_cons.mp hq0 with h1 | h1
      · rw [h1] at hs
        exact absurd hs hp
      · exact ⟨q0, h1, hs⟩

/-- C4: `compute_potential` returns zero whenever some pool on the cycle's
path has a non-sane `PoolPrice`, for every cycle and every input size. -/
theorem C4_insane_zero (P : Printer) (cfg : Config) (cycle : Cycle) (pp : ℕ → PoolPrice)
    (gamble_money : ℕ) (h : ∃ q ∈ cycle.path, (pp q.1).sanity = false) :
    compute_potential P cfg cycle pp gamble_money = 0 :=
  compute_potential_go_insane P cfg pp cycle.path gamble_money 0 h

/-- C4 witness: a concrete one-leg cycle over a non-sane pool price. -/
theorem C4_insane_zero_witness :
    (∃ q ∈ cycSingle.path, (ppInsane q.1).sanity = false) ∧
      compute_potential printerSample cfgSample cycSingle ppInsane 7 = 0 :=
  ⟨by decide, C4_insane_zero printerSample cfgSample cycSingle ppInsane 7 (by decide)⟩

lemma powers_get_isSome (n : ℕ) : (POWERS_OF_TEN.get? n).isSome = true ↔ n ≤ 12 := by
  rw [Option.isSome_iff_ne_none]
  constructor
  · intro h
    by_contra hn
    exact h (List.get?_eq_none.mpr (by simp [POWERS_OF_TEN]; omega))
  · intro h hnone
    have := List.get?_eq_none.mp hnone
    simp [POWERS_OF_TEN] at this
    omega

lemma powers_get_none (n : ℕ) (h : 13 ≤ n) : POWERS_OF_TEN.get? n = none :=
  List.get?_eq_none.mpr (by simp [POWERS_OF_TEN]; omega)

lemma swapChecked_isSome (s : PoolPrice) (toys_in : ℕ) (pool : Pool) (d : Fin 2) :
    (s.swapChecked toys_in d pool).isSome = true ↔
      ((s.token_price d).token_amount.2 ≤ 12 ∧ (s.token_price (1 - d)).token_amount.2 ≤ 12) := by
  simp only [PoolPrice.swapChecked]
  rcases hg : POWERS_OF_TEN.get?
      (max (s.token_price d).token_amount.2 (s.token_price (1 - d)).token_amount.2) with _ | p
  · have := powers_get_isSome
      (max (s.token_price d).token_amount.2 (s.token_price (1 - d)).token_amount.2)
    rw [hg] at this
    simp at this
    simp [hg]
    omega
  · have := powers_get_isSome
      (max (s.token_price d).token_amount.2 (s.token_price (1 - d)).token_amount.2)
    rw [hg] at this
    simp at this
    simp [hg]
    omega

lemma token_amountChecked_isSome (s : PoolPrice) (d : Fin 2) :
    (s.token_amountChecked d).isSome = true ↔ (s.token_price d).token_amount.2 ≤ 12 := by
  rw [← powers_get_isSome (s.token_price d).token_amount.2]
  simp only [PoolPrice.token_amountChecked]
  cases h : POWERS_OF_TEN.get? (s.token_price d).token_amount.2 <;> simp [h]

/-- C10: the bounds-checked `PoolPrice::swap` and `PoolPrice::token_amount`
are total over both directions exactly when every cached leg's decimals
are at most 12; a leg with 13 or more decimals makes the `POWERS_OF_TEN`
access out of bounds. -/
theorem C10_powers_bounds (s : PoolPrice) (toys_in : ℕ) (pool : Pool) :
    ((∀ d : Fin 2, (s.swapChecked toys_in d pool).isSome) ↔
        ∀ d : Fin 2, (s.token_price d).token_amount.2 ≤ 12) ∧
    ((∀ d : Fin 2, (s.token_amountChecked d).isSome) ↔
        ∀ d : Fin 2, (s.token_price d).token_amount.2 ≤ 12) ∧
    (∀ d : Fin 2, 13 ≤ (s.token_price d).token_amount.2 →
        s.token_amountChecked d = none ∧ s.swapChecked toys_in d pool = none) := by
  refine ⟨?_, ?_, ?_⟩
  · constructor
    · intro h d
      exact ((swapChecked_isSome s toys_in pool d).mp (h d)).1
    · intro h d
      exact (swapChecked_isSome s toys_in pool d).mpr ⟨h d, h (1 - d)⟩
  · constructor
    · intro h d
      exact (token_amountChecked_isSome s d).mp (h d)
    · intro h d
      exact (token_amountChecked_isSome s d).mpr (h d)
  · intro d hd
    constructor
    · simp [PoolPrice.token_amountChecked, powers_get_none _ hd, POWERS_OF_TEN]
      omega
    · simp only [PoolPrice.swapChecked]
      rw [powers_get_none _ (le_trans hd (Nat.le_max_left _ _))]

/-- C10 witness: with 13 cached decimals both accesses are out of
bounds. -/
theorem C10_powers_bounds_witness :
    13 ≤ (ppBigDecs.token_price 0).token_amount.2 ∧
      ppBigDecs.token_amountChecked 0 = none ∧
      ppBigDecs.swapChecked 5 0 poolAB = none :=
  ⟨by decide, ((C10_powers_bounds ppBigDecs 5 poolAB).2.2 0 (by decide)).1,
    ((C10_powers_bounds ppBigDecs 5 poolAB).2.2 0 (by decide)).2⟩

lemma slipLoop_eq (slippage : ℚ) : ∀ (n : ℕ) (f : ℚ),
    slipLoop slippage n f = f * (1 - slippage) ^ n := by
  intro n
  induction n with
  | zero => intro f; simp [slipLoop]
  | succ m ih =>
    intro f
    rw [slipLoop, ih]
    ring

lemma solverCoeffsGo_eq (P : Printer) (cfg : Config) (pp : ℕ → PoolPrice) :
    ∀ (path : List (ℕ × Fin 2)) (i : ℕ) (st : ℚ × ℚ × ℚ),
      solverCoeffsGo P cfg pp path i st = specAmendedCoeffsGo P cfg pp path i st := by
  intro path
  induction path with
  | nil => intro i st; rfl
  | cons q rest ih =>
    rcases q with ⟨pool, dir⟩
    intro i st
    rcases st with ⟨alpha, beta, gamma⟩
    have hf : slipLoop cfg.slippage i ((P.pools pool).fees * (1 - cfg.slippage)) =
        (P.pools pool).fees * (1 - cfg.slippage) ^ (i + 1) := by
      rw [slipLoop_eq]
      ring
    simp only [solverCoeffsGo, specAmendedCoeffsGo, hf]
    exact ih (i + 1) _

/-- C5 (amended): the solver's composed-curve coefficients follow the
claimed recurrence from `(alpha, beta, gamma) = (1, 1, 0)` with per-hop
discount `f = fees(leg_i) * (1 - slippage_margin) ^ (i + 1)` (the code
multiplies in one extra `(1 - slippage)` factor per preceding leg; the
original claim's `f = fees * (1 - slippage)` holds only for leg 0), and
the unscaled trial size is `(sqrt(alpha*beta) - beta) / gamma` over these
coefficients. -/
theorem C5_coeffs_amended (P : Printer) (cfg : Config) (pp : ℕ → PoolPrice)
    (path : List (ℕ × Fin 2)) :
    solverCoeffs P cfg pp path = specAmendedCoeffs P cfg pp path ∧
    gamble_money_f (solverCoeffs P cfg pp path) =
      (Real.sqrt (((specAmendedCoeffs P cfg pp path).1 : ℝ) *
            ((specAmendedCoeffs P cfg pp path).2.1 : ℝ)) -
          ((specAmendedCoeffs P cfg pp path).2.1 : ℝ)) /
        ((specAmendedCoeffs P cfg pp path).2.2 : ℝ) := by
  have h : solverCoeffs P cfg pp path = specAmendedCoeffs P cfg pp path :=
    solverCoeffsGo_eq P cfg pp path 0 (1, 1, 0)
  exact ⟨h, by rw [h]; rfl⟩

/-- C5 counterexample: on a two-leg cycle with slippage 1/2 and fee factor
1, the code's coefficients are `(1/8, 1, 5/8)` while the claim's
`f = fees * (1 - slippage)` recurrence yields `(1/4, 1, 3/4)`. -/
theorem C5_counterexample :
    solverCoeffs printerSample cfgSlip ppSane cycAB.path = (1 / 8, 1, 5 / 8) ∧
    specClaimCoeffs printerSample cfgSlip ppSane cycAB.path = (1 / 4, 1, 3 / 4) ∧
    solverCoeffs printerSample cfgSlip ppSane cycAB.path ≠
      specClaimCoeffs printerSample cfgSlip ppSane cycAB.path := by
  have h1 : solverCoeffs printerSample cfgSlip ppSane cycAB.path = (1 / 8, 1, 5 / 8) := by
    norm_num [solverCoeffs, solverCoeffsGo, slipLoop, cycAB, printerSample, ppSane, cfgSlip,
      PoolPrice.token_amount, tp0, pow10, poolAB, poolBA, Pool.fees, Pool.approximate_fees,
      feesZero, Prod.ext_iff]
  have h2 : specClaimCoeffs printerSample cfgSlip ppSane cycAB.path = (1 / 4, 1, 3 / 4) := by
    norm_num [specClaimCoeffs, specClaimCoeffsGo, cycAB, printerSample, ppSane, cfgSlip,
      PoolPrice.token_amount, tp0, pow10, poolAB, poolBA, Pool.fees, Pool.approximate_fees,
      feesZero, Prod.ext_iff]
  refine ⟨h1, h2, ?_⟩
  rw [h1, h2]
  intro hcontra
  rw [Prod.ext_iff] at hcontra
  norm_num at hcontra

/-- C6: the solver result is floored, scaled by greed and clamped — when
the scaled value is negative, below the `minimum_money` floor, or above
the safety maximum `get_gamble_money` it returns the safety maximum,
otherwise the scaled value itself (hypotheses keep the u64/i64 casts in
their non-wrapping range). -/
theorem C6_clamp (P : Printer) (cfg : Config) (gmf : ℚ)
    (hmin : cfg.minimum_money < 2 ^ 63)
    (hlo : -(2 ^ 63) ≤ ratTrunc ((⌊gmf⌋ : ℚ) * cfg.greed))
    (hhi : ratTrunc ((⌊gmf⌋ : ℚ) * cfg.greed) ≤ 2 ^ 63 - 1) :
    clamp_gamble_money P cfg gmf =
      if ratTrunc ((⌊gmf⌋ : ℚ) * cfg.greed) < 0 ∨
          ratTrunc ((⌊gmf⌋ : ℚ) * cfg.greed) < (cfg.minimum_money : ℤ) ∨
          (get_gamble_money P cfg : ℤ) < ratTrunc ((⌊gmf⌋ : ℚ) * cfg.greed) then
        get_gamble_money P cfg
      else (ratTrunc ((⌊gmf⌋ : ℚ) * cfg.greed)).toNat := by
  unfold clamp_gamble_money
  have hsat : toI64sat ((⌊gmf⌋ : ℚ) * cfg.greed) = ratTrunc ((⌊gmf⌋ : ℚ) * cfg.greed) := by
    unfold toI64sat
    rw [min_eq_right hhi, max_eq_right hlo]
  have hi64 : i64ofU64 cfg.minimum_money = (cfg.minimum_money : ℤ) := by
    unfold i64ofU64
    rw [Int.emod_eq_of_lt (by omega) (by omega)]
    omega
  rw [hsat, hi64]
  simp only [u64ofI64]
  split_ifs <;> omega

/-- C6 witness: a concrete in-range instance (scaled value 100, floor 0,
safety maximum 500) returning the scaled value. -/
theorem C6_clamp_witness :
    cfgSample.minimum_money < 2 ^ 63 ∧
      -(2 ^ 63) ≤ ratTrunc ((⌊(100 : ℚ)⌋ : ℚ) * cfgSample.greed) ∧
      ratTrunc ((⌊(100 : ℚ)⌋ : ℚ) * cfgSample.greed) ≤ 2 ^ 63 - 1 ∧
      clamp_gamble_money printerSample cfgSample 100 =
        (if ratTrunc ((⌊(100 : ℚ)⌋ : ℚ) * cfgSample.greed) < 0 ∨
            ratTrunc ((⌊(100 : ℚ)⌋ : ℚ) * cfgSample.greed) < (cfgSample.minimum_money : ℤ) ∨
            (get_gamble_money printerSample cfgSample : ℤ) <
              ratTrunc ((⌊(100 : ℚ)⌋ : ℚ) * cfgSample.greed) then
          get_gamble_money printerSample cfgSample
        else (ratTrunc ((⌊(100 : ℚ)⌋ : ℚ) * cfgSample.greed)).toNat) := by
  refine ⟨by decide, ?_, ?_, C6_clamp printerSample cfgSample 100 (by decide) ?hlo ?hhi⟩
  case hlo => norm_num [ratTrunc, cfgSample]
  case hhi => norm_num [ratTrunc, cfgSample]
  · norm_num [ratTrunc, cfgSample]
  · norm_num [ratTrunc, cfgSample]

/-- C3 (amended): in the evaluation pass, an execution request for a cycle
is issued iff either (a) the cycle is not marked needs-update, its
cooldown is positive, its cached size passes the `minimum_money` floor and
the cached gain passes the threshold, or (b) it is marked needs-update and
the freshly recomputed size differs from the cached one, passes the floor,
the recomputed gain (as u64) differs from the cached gain, and the
recomputed gain passes the threshold. In particular the threshold is
necessary but not sufficient: idle cycles and cycles whose recomputed
values match the cache issue no request even when profitable. -/
theorem C3_fire_iff_amended (cfg : Config) (bg pot : ℕ) (s : CycleState)
    (hg : cfg.minimum_gain < 2 ^ 64) (hm : s.money + cfg.minimum_gain < 2 ^ 64) :
    ((evalCycle cfg bg pot s).2 = true ↔
      ((s.needs_update = false ∧ s.cooldown ≠ 0 ∧ cfg.minimum_money ≤ s.money ∧
          s.money + cfg.minimum_gain < s.gain) ∨
       (s.needs_update = true ∧ bg ≠ s.money ∧ cfg.minimum_money ≤ bg ∧
          s.gain ≠ pot % 2 ^ 64 ∧ bg + cfg.minimum_gain < pot))) := by
  have h1 : cfg.minimum_gain % 2 ^ 64 = cfg.minimum_gain := Nat.mod_eq_of_lt hg
  have h2 : (s.money + cfg.minimum_gain) % 2 ^ 64 = s.money + cfg.minimum_gain :=
    Nat.mod_eq_of_lt hm
  simp only [evalCycle, h1, h2]
  cases hnu : s.needs_update <;> split_ifs <;> simp_all

/-- C3 counterexample: an idle cycle (needs-update clear, cooldown 0)
whose cached gain strictly exceeds its cached size plus `minimum_gain`
(and passes the floor) issues no execution request in the pass. -/
theorem C3_counterexample :
    (evalCycle cfgSample 0 0 ⟨0, 100, 10, false⟩).2 = false ∧
      (⟨0, 100, 10, false⟩ : CycleState).money + cfgSample.minimum_gain <
        (⟨0, 100, 10, false⟩ : CycleState).gain ∧
      cfgSample.minimum_money ≤ (⟨0, 100, 10, false⟩ : CycleState).money := by decide

/-- C3 witness: a needs-update cycle whose recomputed values change the
cache and pass the threshold fires. -/
theorem C3_fire_iff_witness :
    cfgSample.minimum_gain < 2 ^ 64 ∧
      (⟨5, 0, 0, true⟩ : CycleState).money + cfgSample.minimum_gain < 2 ^ 64 ∧
      (evalCycle cfgSample 50 200 ⟨5, 0, 0, true⟩).2 = true :=
  ⟨by decide, by decide,
    (C3_fire_iff_amended cfgSample 50 200 ⟨5, 0, 0, true⟩ (by decide) (by decide)).mpr
      (by decide)⟩

lemma swapMins_append (l1 l2 : List Instr) :
    swapMins (l1 ++ l2) = swapMins l1 ++ swapMins l2 := by
  induction l1 with
  | nil => rfl
  | cons x rest ih => cases x <;> simp [swapMins, ih]

lemma pool_swap_swapMins (pool : Pool) (acc : List Instr) (tin tout : ℕ) (dir : Fin 2)
    (out : List Instr) (h : pool.swap acc tin tout dir = some out) :
    swapMins out = swapMins acc ++ [tout % 2 ^ 64] := by
  cases pool with
  | Swap p =>
    simp only [Pool.swap] at h
    by_cases ha : p.needs_approve
    · simp only [ha, if_true] at h
      obtain rfl := Option.some.inj h
      simp [swapMins_append, swapMins]
    · simp only [ha, if_false] at h
      obtain rfl := Option.some.inj h
      simp [swapMins_append, swapMins]
  | Raydium p =>
    simp only [Pool.swap] at h
    split_ifs at h with h1 h2
    obtain rfl := Option.some.inj h
    simp [swapMins_append, swapMins]

lemma minsPattern_cons (m g : ℕ) :
    ((if m = 0 then g % 2 ^ 64 else 0) ::
        (List.range m).map (fun i => if i + 1 < m then 0 else g % 2 ^ 64)) =
      (List.range (m + 1)).map (fun i => if i + 1 < m + 1 then 0 else g % 2 ^ 64) := by
  rw [List.range_succ_eq_map, List.map_cons, List.map_map]
  congr 1
  · by_cases hm : m = 0
    · simp [hm]
    · simp [hm, Nat.pos_of_ne_zero hm]
  · apply List.map_congr_left
    intro i _
    simp only [Function.comp]
    by_cases hi : i + 1 < m <;> simp [hi]

lemma execute_path_go_mins (P : Printer) (cfg : Config) (pp : ℕ → PoolPrice) (g : ℕ) :
    ∀ (path : List (ℕ × Fin 2)) (toys decs : ℕ) (acc out : List Instr),
      execute_path_go P cfg pp g path toys decs acc = some out →
      (swapMins out =
          swapMins acc ++
            (List.range path.length).map
              (fun i => if i + 1 < path.length then 0 else g % 2 ^ 64)) ∨
      (swapMins out).length < (swapMins acc).length + path.length := by
  intro path
  induction path with
  | nil =>
    intro toys decs acc out h
    left
    simp only [execute_path_go] at h
    obtain rfl := Option.some.inj h
    simp
  | cons q rest ih =>
    rcases q with ⟨p, w⟩
    intro toys decs acc out h
    simp only [execute_path_go] at h
    by_cases hbreak : toys < ((pp p).swap toys w (P.pools p)).2
    · rw [if_pos hbreak] at h
      obtain rfl := Option.some.inj h
      right
      simp only [List.length_cons]
      omega
    · rw [if_neg hbreak] at h
      rcases hps : Pool.swap (P.pools p) acc toys (if rest = [] then g else 0) w with _ | acc1
      · rw [hps] at h
        cases h
      · rw [hps] at h
        have hacc1 := pool_swap_swapMins (P.pools p) acc toys (if rest = [] then g else 0) w
          acc1 hps
        rcases ih _ _ acc1 out h with hl | hr
        · left
          rw [hl, hacc1, List.append_assoc, List.singleton_append, List.length_cons]
          congr 1
          have hv : (if rest = [] then g else 0) % 2 ^ 64 =
              (if rest.length = 0 then g % 2 ^ 64 else 0) := by
            by_cases hr0 : rest = [] <;> simp [hr0, List.length_eq_zero]
          rw [hv]
          exact minsPattern_cons rest.length g
        · right
          have hlen : (swapMins acc1).length = (swapMins acc).length + 1 := by
            rw [hacc1]
            simp
          simp only [List.length_cons]
          omega

/-- C8: when `execute_path` submits a bundle containing a swap instruction
for every leg of an n-leg cycle, the `minimum_amount_out` values are 0 for
every leg but the last, and the original input size (as u64) for the last
leg. -/
theorem C8_min_out (P : Printer) (cfg : Config) (cycle : Cycle) (gamble_money : ℕ)
    (pp : ℕ → PoolPrice) (out : List Instr)
    (hsome : execute_path P cfg cycle gamble_money pp = some out)
    (hfull : (swapMins out).length = cycle.path.length) :
    swapMins out =
      (List.range cycle.path.length).map
        (fun i => if i + 1 < cycle.path.length then 0 else gamble_money % 2 ^ 64) := by
  unfold execute_path at hsome
  have hinit : swapMins (if 0 < cfg.extra_budget then [Instr.computeBudget cfg.extra_budget]
      else ([] : List Instr)) = [] := by
    by_cases hb : 0 < cfg.extra_budget <;> simp [hb, swapMins]
  rcases execute_path_go_mins P cfg pp gamble_money cycle.path gamble_money 0 _ out hsome
    with hl | hr
  · rw [hl, hinit]
    simp
  · rw [hinit] at hr
    simp at hr
    omega

/-- C9: a concrete two-leg cycle where the second leg's predicted consumed
amount (101) exceeds the amount fed in (100): `execute_path` stops adding
instructions at that leg yet still reaches submission with the one-leg
instruction prefix. -/
theorem C9_partial_submit :
    cycAB.path.length = 2 ∧
    100 < ((ppSane 1).swap 100 0 (printerBreak.pools 1)).2 ∧
    execute_path printerBreak cfgSample cycAB 100 ppSane = some [Instr.swapIns 100 0] := by
  refine ⟨rfl, ?_, ?_⟩
  · norm_num [PoolPrice.swap, Pool.predict_swap, printerBreak, poolBAover, curveOver, ppSane,
      tp0, pow10, toU128, ratTrunc]
  · norm_num [execute_path, execute_path_go, PoolPrice.swap, Pool.predict_swap, Pool.swap,
      curveId, curveOver, toU128, ratTrunc, pow10, printerBreak, poolAB, poolBAover, ppSane,
      tp0, tok, feesZero, cfgSample, cycAB, Pool.get_currency, curr0]

/-- C8 witness: a fully built two-leg bundle whose swap minimum-out values
are `[0, 100]` for input size 100. -/
theorem C8_min_out_witness :
    (execute_path printerSample cfgSample cycAB 100 ppSane =
        some [Instr.swapIns 100 0, Instr.swapIns 100 100]) ∧
      (swapMins [Instr.swapIns 100 0, Instr.swapIns 100 100]).length = cycAB.path.length ∧
      swapMins [Instr.swapIns 100 0, Instr.swapIns 100 100] =
        (List.range cycAB.path.length).map
          (fun i => if i + 1 < cycAB.path.length then 0 else 100 % 2 ^ 64) := by
  have hev : execute_path printerSample cfgSample cycAB 100 ppSane =
      some [Instr.swapIns 100 0, Instr.swapIns 100 100] := by
    norm_num [execute_path, execute_path_go, PoolPrice.swap, Pool.predict_swap, Pool.swap,
      curveId, toU128, ratTrunc, pow10, printerSample, poolAB, poolBA, ppSane,
      tp0, tok, feesZero, cfgSample, cycAB, Pool.get_currency, curr0]
    omega
  refine ⟨hev, by decide, ?_⟩
  exact C8_min_out printerSample cfgSample cycAB 100 ppSane _ hev (by decide)

lemma chainFrom_append (pools : List Pool) :
    ∀ (xs ys : List (ℕ × Fin 2)) (cur : ℕ),
      chainFrom pools cur (xs ++ ys) ↔
        (chainFrom pools cur xs ∧ chainFrom pools (outAfter pools cur xs) ys) := by
  intro xs
  induction xs with
  | nil => intro ys cur; simp [chainFrom, outAfter]
  | cons q rest ih =>
    intro ys cur
    simp [chainFrom, outAfter, ih, and_assoc]

lemma outAfter_append (pools : List Pool) :
    ∀ (xs ys : List (ℕ × Fin 2)) (cur : ℕ),
      outAfter pools cur (xs ++ ys) = outAfter pools (outAfter pools cur xs) ys := by
  intro xs
  induction xs with
  | nil => intro ys cur; simp [outAfter]
  | cons q rest ih => intro ys cur; simp [outAfter, ih]

lemma outAfter_getLast (pools : List Pool) :
    ∀ (xs : List (ℕ × Fin 2)) (q : ℕ × Fin 2) (cur : ℕ), xs.getLast? = some q →
      outAfter pools cur xs = legOut pools q := by
  intro xs
  induction xs with
  | nil => intro q cur h; cases h
  | cons a rest ih =>
    intro q cur h
    cases rest with
    | nil =>
      obtain rfl := Option.some.inj h
      rfl
    | cons b t =>
      rw [List.getLast?_cons_cons] at h
      exact ih q (legOut pools a) h

lemma chainFrom_chain' (pools : List Pool) :
    ∀ (xs : List (ℕ × Fin 2)) (cur : ℕ), chainFrom pools cur xs →
      List.Chain' (fun q1 q2 => legOut pools q1 = legIn pools q2) xs := by
  intro xs
  induction xs with
  | nil => intro cur h; simp
  | cons a rest ih =>
    intro cur h
    cases rest with
    | nil => simp
    | cons b t =>
      obtain ⟨h1, h2⟩ := h
      rw [List.chain'_cons]
      exact ⟨h2.1.symm, ih _ h2⟩

lemma initFrontier_inv (cfg : Config) (pools : List Pool) :
    ∀ c ∈ initFrontier cfg pools, FrontInv cfg pools 1 c := by
  intro c hc
  unfold initFrontier at hc
  rw [List.mem_flatMap] at hc
  obtain ⟨p, hp, hfm⟩ := hc
  rw [List.mem_filterMap] at hfm
  obtain ⟨w, hw, heq⟩ := hfm
  split_ifs at heq with hcond
  obtain rfl := Option.some.inj heq
  refine ⟨by simp, by simp, by simp, ⟨hcond, trivial⟩, ?_⟩
  simp [List.any_cons]

lemma expandCycle_inv (cfg : Config) (pools : List Pool) (L : ℕ) (c : Cycle)
    (hinv : FrontInv cfg pools L c) :
    ∀ cb ∈ expandCycle cfg pools c,
      FrontInv cfg pools (L + 1) cb.1 ∧
        (cb.2 = true → outAfter pools cfg.start_currency cb.1.path = cfg.start_currency) := by
  obtain ⟨hne, hlen, hnd, hchain, happ⟩ := hinv
  intro cb hm
  unfold expandCycle at hm
  rcases hlast : c.path.getLast? with _ | lq
  · rw [List.getLast?_eq_none_iff] at hlast
    exact absurd hlast hne
  · rw [hlast] at hm
    rcases lq with ⟨lst_pool, lst_in⟩
    rw [List.mem_flatMap] at hm
    obtain ⟨p, hp, hfm⟩ := hm
    by_cases hused : c.path.any fun q => q.1 == p
    · rw [if_pos hused] at hfm
      cases hfm
    · rw [if_neg hused] at hfm
      rw [List.mem_filterMap] at hfm
      obtain ⟨w, hw, heq⟩ := hfm
      split_ifs at heq with hcond
      obtain rfl := Option.some.inj heq
      have hnotin : p ∉ c.path.map Prod.fst := by
        intro hmem
        rw [List.mem_map] at hmem
        obtain ⟨q, hq, hq1⟩ := hmem
        exact hused (List.any_eq_true.mpr ⟨q, hq, by simp [hq1]⟩)
      have hout : outAfter pools cfg.start_currency c.path = legOut pools (lst_pool, lst_in) :=
        outAfter_getLast pools c.path (lst_pool, lst_in) cfg.start_currency hlast
      refine ⟨⟨by simp, by simp [hlen], ?_, ?_, ?_⟩, ?_⟩
      · rw [List.map_append]
        simp [List.nodup_append, hnd, hnotin]
      · rw [chainFrom_append]
        exact ⟨hchain, ⟨by rw [hout]; exact hcond, trivial⟩⟩
      · simp only [List.any_append, List.any_cons, List.any_nil, Bool.or_false]
        rw [happ]
      · intro hflag
        rw [outAfter_append]
        simp only [outAfter]
        simpa using hflag

lemma stepCycles_inv (cfg : Config) (pools : List Pool) (B L : ℕ)
    (res tmp : List Cycle)
    (hres : ∀ c ∈ res, ResInv cfg pools B c)
    (hfront : ∀ c ∈ tmp, FrontInv cfg pools L c)
    (hLB : L + 1 ≤ B) :
    (∀ c ∈ (stepCycles cfg pools (res, tmp)).1, ResInv cfg pools B c) ∧
    (∀ c ∈ (stepCycles cfg pools (res, tmp)).2, FrontInv cfg pools (L + 1) c) := by
  constructor
  · intro c hc
    unfold stepCycles at hc
    rw [List.mem_append] at hc
    rcases hc with hc | hc
    · exact hres c hc
    · rw [List.mem_filterMap] at hc
      obtain ⟨qc, hqc, heq⟩ := hc
      split_ifs at heq with hflag
      obtain rfl := Option.some.inj heq
      rw [List.mem_flatMap] at hqc
      obtain ⟨c0, hc0, hqcm⟩ := hqc
      obtain ⟨⟨h1, h2, h3, h4, h5⟩, hclosed⟩ :=
        expandCycle_inv cfg pools L c0 (hfront c0 hc0) qc hqcm
      exact ⟨h1, by omega, h3, h4, hclosed hflag, h5⟩
  · intro c hc
    unfold stepCycles at hc
    rw [List.mem_filterMap] at hc
    obtain ⟨qc, hqc, heq⟩ := hc
    split_ifs at heq with hflag
    obtain rfl := Option.some.inj heq
    rw [List.mem_flatMap] at hqc
    obtain ⟨c0, hc0, hqcm⟩ := hqc
    exact (expandCycle_inv cfg pools L c0 (hfront c0 hc0) qc hqcm).1

lemma cyclesLoop_inv (cfg : Config) (pools : List Pool) (B : ℕ) :
    ∀ (m : ℕ) (res tmp : List Cycle) (L : ℕ),
      (∀ c ∈ res, ResInv cfg pools B c) →
      (∀ c ∈ tmp, FrontInv cfg pools L c) →
      L + m ≤ B →
      ∀ c ∈ (cyclesLoop cfg pools m (res, tmp)).1, ResInv cfg pools B c := by
  intro m
  induction m with
  | zero => intro res tmp L hres hfront hLB c hc; exact hres c hc
  | succ n ih =>
    intro res tmp L hres hfront hLB c hc
    rw [cyclesLoop] at hc
    obtain ⟨hres1, hfront1⟩ := stepCycles_inv cfg pools B L res tmp hres hfront (by omega)
    exact ih (stepCycles cfg pools (res, tmp)).1 (stepCycles cfg pools (res, tmp)).2 (L + 1)
      hres1 hfront1 (by omega) c (by simpa using hc)

/-- C7: every cycle produced by `construct_cycles` has a nonempty path of
length at most the configured maximum, no repeated pool id, a first leg
whose input currency is the start currency, a last leg whose output
currency is the start currency, consecutive legs chaining output to
input, and a `needs_approval` flag equal to the OR of the approval
requirement of every pool on its path. -/
theorem C7_cycles_sound (cfg : Config) (pools : List Pool) (c : Cycle)
    (hc : c ∈ construct_cycles cfg pools) :
    c.path ≠ [] ∧
    c.path.length ≤ cfg.max_cycle_length ∧
    (c.path.map Prod.fst).Nodup ∧
    (∃ q, c.path.head? = some q ∧ legIn pools q = cfg.start_currency) ∧
    (∃ q, c.path.getLast? = some q ∧ legOut pools q = cfg.start_currency) ∧
    List.Chain' (fun q1 q2 => legOut pools q1 = legIn pools q2) c.path ∧
    c.needs_approval = c.path.any fun q => (pools.getD q.1 default).needs_approval := by
  have hres : ResInv cfg pools cfg.max_cycle_length c := by
    unfold construct_cycles at hc
    rcases hmax : cfg.max_cycle_length with _ | M
    · rw [hmax] at hc
      simp [cyclesLoop] at hc
    · rw [hmax] at hc
      have h1M : M + 1 - 1 = M := by omega
      rw [h1M] at hc
      exact cyclesLoop_inv cfg pools (M + 1) M [] (initFrontier cfg pools) 1
        (by intro c0 hc0; cases hc0) (initFrontier_inv cfg pools) (by omega) c hc
  obtain ⟨h1, h2, h3, h4, h5, h6⟩ := hres
  refine ⟨h1, h2, h3, ?_, ?_, chainFrom_chain' pools c.path _ h4, h6⟩
  · rcases hpath : c.path with _ | ⟨q, t⟩
    · exact absurd hpath h1
    · rw [hpath] at h4
      exact ⟨q, rfl, h4.1⟩
  · rcases hq : c.path.getLast? with _ | lq
    · rw [List.getLast?_eq_none_iff] at hq
      exact absurd hq h1
    · refine ⟨lq, rfl, ?_⟩
      rw [← outAfter_getLast pools c.path lq cfg.start_currency hq]
      exact h5

/-- C7 witness: the round-trip cycle over `poolsSample` produced by
`construct_cycles` satisfies all claimed properties. -/
theorem C7_cycles_sound_witness :
    (⟨false, [(0, 0), (1, 0)]⟩ : Cycle) ∈ construct_cycles cfgSample poolsSample ∧
      ((⟨false, [(0, 0), (1, 0)]⟩ : Cycle).path ≠ [] ∧
        (⟨false, [(0, 0), (1, 0)]⟩ : Cycle).path.length ≤ cfgSample.max_cycle_length ∧
        ((⟨false, [(0, 0), (1, 0)]⟩ : Cycle).path.map Prod.fst).Nodup ∧
        (∃ q, (⟨false, [(0, 0), (1, 0)]⟩ : Cycle).path.head? = some q ∧
          legIn poolsSample q = cfgSample.start_currency) ∧
        (∃ q, (⟨false, [(0, 0), (1, 0)]⟩ : Cycle).path.getLast? = some q ∧
          legOut poolsSample q = cfgSample.start_currency) ∧
        List.Chain' (fun q1 q2 => legOut poolsSample q1 = legIn poolsSample q2)
          (⟨false, [(0, 0), (1, 0)]⟩ : Cycle).path ∧
        (⟨false, [(0, 0), (1, 0)]⟩ : Cycle).needs_approval =
          (⟨false, [(0, 0), (1, 0)]⟩ : Cycle).path.any
            fun q => (poolsSample.getD q.1 default).needs_approval) :=
  ⟨by decide, C7_cycles_sound cfgSample poolsSample ⟨false, [(0, 0), (1, 0)]⟩ (by decide)⟩

end Hikaru
